import Mathlib

/-
Verification development for the deque engine in
src/trunk/ascii_game_engine/libcstl/src/cstl_deque.c.

The C deque stores elements of an abstract type through a TypeDescriptor
(element size, init, copy, less, destroy).  Three shallow embeddings are used,
each translated from the source:

1. a comparison model (deque_equal / deque_less, lines 935-1021): deques of a
   common element type are their element sequences (List alpha) together with
   the TypeDescriptor's boolean `less`;

2. a sequence-level model of the positional mutators (insert / erase /
   erase_range / pop, lines 1071-1345 and the Move Engine lines 1908-1984):
   the logical element sequence is a List alpha, iterator positions are
   logical indices, and every element copy / value fill / element destroy the
   code performs is recorded in the result so that frame-effect claims can be
   stated about exactly which slots each operation touches;

3. a block/map-level model of the Growth and Shrink Engines
   (_expand_at_end / _expand_at_begin / _shrink_at_end / _shrink_at_begin,
   lines 1496-1906, and deque_init_n lines 475-561): the state keeps the map
   size, which map slots own a Block (a List Bool), and the start / finish
   iterators as (block index, offset) pairs; element values are irrelevant to
   these claims, only allocation, construction and destruction counts are.

Blocks hold _DEQUE_ELEM_COUNT = 16 element slots, the map starts with
_DEQUE_MAP_COUNT = 16 slots and grows by multiples of _DEQUE_MAP_GROW_STEP = 8;
the literals 16 and 8 below are these constants.
-/

namespace CstlDeque

/-! ### Comparison model (cstl_deque.c lines 935-1021)

`deque_equal` first rejects deques of different sizes, then walks both
sequences in lockstep and reports inequality as soon as the TypeDescriptor's
`less` holds in either direction for the current pair (lines 951-974).
`deque_less` walks both sequences, returning early when `less` decides a pair
(lines 994-1018), and otherwise compares the sizes (line 1020).  The loop of
each function is modelled as its own recursive function on the two
sequences. -/

/-- Loop of `deque_equal` (lines 956-974): stop at the first pair that is
less in either direction; the loop ends when either sequence ends. -/
def deque_equal_loop (lt : α → α → Bool) : List α → List α → Bool
  | x :: xs, y :: ys =>
    if lt x y || lt y x then false else deque_equal_loop lt xs ys
  | _, _ => true

/-- `deque_equal` (lines 935-979) for two deques of the same element type:
size test (line 951) then the pairwise loop. -/
def deque_equal (lt : α → α → Bool) (a b : List α) : Bool :=
  if a.length ≠ b.length then false else deque_equal_loop lt a b

/-- Loop of `deque_less` (lines 994-1018): `some true` when the first
sequence's element is less, `some false` when the second's is, `none` when a
sequence ends without a deciding pair. -/
def deque_less_loop (lt : α → α → Bool) : List α → List α → Option Bool
  | x :: xs, y :: ys =>
    if lt x y then some true
    else if lt y x then some false
    else deque_less_loop lt xs ys
  | _, _ => none

/-- `deque_less` (lines 986-1021): the element loop, then
`deque_size(first) < deque_size(second)` (line 1020). -/
def deque_less (lt : α → α → Bool) (a b : List α) : Bool :=
  match deque_less_loop lt a b with
  | some r => r
  | none => decide (a.length < b.length)

/-- Modelled from the spec: the lexicographic ordering of two element
sequences under a strict `less`, with the shorter sequence less when one is a
proper prefix of the other.  This is the spec-side reference definition that
`deque_less` is compared against. -/
def specLexLess (lt : α → α → Bool) : List α → List α → Bool
  | _, [] => false
  | [], _ :: _ => true
  | x :: xs, y :: ys => lt x y || (!(lt y x) && specLexLess lt xs ys)

theorem deque_equal_loop_iff (lt : α → α → Bool) :
    ∀ a b : List α, deque_equal_loop lt a b = true ↔
      ∀ p ∈ a.zip b, lt p.1 p.2 = false ∧ lt p.2 p.1 = false := by
  intro a
  induction a with
  | nil => intro b; simp [deque_equal_loop]
  | cons x xs ih =>
    intro b
    cases b with
    | nil => simp [deque_equal_loop]
    | cons y ys =>
      simp only [deque_equal_loop, List.zip_cons_cons, List.mem_cons]
      by_cases h : (lt x y || lt y x) = true
      · rw [if_pos h]
        constructor
        · intro hf; exact absurd hf (by simp)
        · intro hall
          have := hall (x, y) (Or.inl rfl)
          rcases Bool.or_eq_true_iff.mp h with h1 | h1 <;>
            simp [h1] at this
      · rw [if_neg h, ih ys]
        constructor
        · intro hall p hp
          rcases hp with hp | hp
          · subst hp
            simp only [Bool.or_eq_true, not_or] at h
            exact ⟨Bool.not_eq_true _ ▸ Bool.eq_false_iff.mpr h.1,
              Bool.eq_false_iff.mpr h.2⟩
          · exact hall p hp
        · intro hall p hp; exact hall p (Or.inr hp)

theorem deque_less_eq_specLexLess (lt : α → α → Bool) :
    ∀ a b : List α, deque_less lt a b = specLexLess lt a b := by
  intro a
  induction a with
  | nil =>
    intro b
    cases b <;> simp [deque_less, deque_less_loop, specLexLess]
  | cons x xs ih =>
    intro b
    cases b with
    | nil => simp [deque_less, deque_less_loop, specLexLess]
    | cons y ys =>
      by_cases h1 : lt x y = true
      · simp [deque_less, deque_less_loop, specLexLess, h1]
      · by_cases h2 : lt y x = true
        · simp [deque_less, deque_less_loop, specLexLess, h1, h2]
        · have hx := ih ys
          have e1 : lt x y = false := Bool.eq_false_iff.mpr h1
          have e2 : lt y x = false := Bool.eq_false_iff.mpr h2
          simp only [deque_less] at hx
          simp only [deque_less, deque_less_loop, specLexLess]
          rw [if_neg h1, if_neg h2, e1, e2]
          simp only [Bool.false_or, Bool.not_false, Bool.true_and]
          cases hL : deque_less_loop lt xs ys with
          | some r => rw [hL] at hx; exact hx
          | none =>
            rw [hL] at hx
            simp only [List.length_cons]
            rw [← hx]
            exact decide_eq_decide.mpr ⟨fun h => by omega, fun h => by omega⟩

/-- Claim C3: for two deques of the same element type, `deque_equal` returns
true iff the sizes agree and no componentwise pair is less in either
direction under the TypeDescriptor's `less`; and `deque_less` is the
lexicographic ordering of the element sequences under that `less`, the
shorter sequence being less when one is a proper prefix of the other. -/
theorem deque_equal_iff_and_deque_less_lex (lt : α → α → Bool) (a b : List α) :
    (deque_equal lt a b = true ↔
      (a.length = b.length ∧ ∀ p ∈ a.zip b, lt p.1 p.2 = false ∧ lt p.2 p.1 = false)) ∧
    deque_less lt a b = specLexLess lt a b := by
  constructor
  · unfold deque_equal
    by_cases h : a.length = b.length
    · simp only [h, ne_eq, not_true_eq_false, if_false]
      rw [deque_equal_loop_iff]
      simp [h]
    · simp [h]
  · exact deque_less_eq_specLexLess lt a b

/-! ### Typed comparison outcomes (claim C4)

`deque_equal` guards against deques of different element types with an
ordinary conditional that returns false (lines 946-949), while `deque_less`
guards with `assert(_deque_same_type(..))` (line 992).  The outcome of a call
in a debug build is either a returned value or an assertion violation. -/

/-- Outcome of a C call in a debug build: a returned value, or a failed
`assert`. -/
inductive CResult (β : Type) where
  | ok (val : β)
  | assertViolation
deriving DecidableEq, Repr

/-- `deque_equal` including its `_deque_same_type` guard (lines 946-949):
a type mismatch makes it return false; it never asserts on the mismatch.
Type identities are modelled as tags. -/
def deque_equal_typed (lt : α → α → Bool) (ta tb : Nat) (a b : List α) :
    CResult Bool :=
  if ta ≠ tb then .ok false else .ok (deque_equal lt a b)

/-- `deque_less` including its `assert(_deque_same_type(..))` (line 992):
a type mismatch is an assertion violation. -/
def deque_less_typed (lt : α → α → Bool) (ta tb : Nat) (a b : List α) :
    CResult Bool :=
  if ta ≠ tb then .assertViolation else .ok (deque_less lt a b)

/-- Claim C4 counterexample: comparing two deques of different element types
with `deque_equal` is not detected by an assertion; the call returns the
value false, i.e. the mismatch is reported through the return code. -/
theorem deque_equal_type_mismatch_is_return_code :
    deque_equal_typed (fun a b : Nat => decide (a < b)) 0 1 [] [] = CResult.ok false ∧
    (CResult.ok false ≠ (CResult.assertViolation : CResult Bool)) := by
  constructor
  · rfl
  · decide

/-- Claim C4 (amended): on a type mismatch `deque_less` fails its
`_deque_same_type` assertion, while `deque_equal` detects the mismatch and
reports it via its return value (false), not via an assertion. -/
theorem type_mismatch_less_asserts_equal_returns_false (lt : α → α → Bool)
    (ta tb : Nat) (a b : List α) (h : ta ≠ tb) :
    deque_less_typed lt ta tb a b = CResult.assertViolation ∧
    deque_equal_typed lt ta tb a b = CResult.ok false := by
  simp [deque_less_typed, deque_equal_typed, h]

theorem type_mismatch_less_asserts_equal_returns_false_witness :
    ((0 : Nat) ≠ 1) ∧
    (deque_less_typed (fun a b : Nat => decide (a < b)) 0 1 [] [] = CResult.assertViolation ∧
     deque_equal_typed (fun a b : Nat => decide (a < b)) 0 1 [] [] = CResult.ok false) :=
  ⟨by decide,
   type_mismatch_less_asserts_equal_returns_false (fun a b : Nat => decide (a < b))
     0 1 [] [] (by decide)⟩

/-! ### List helper lemmas for the sequence model -/

theorem getD_set_self (l : List α) (i : Nat) (v d : α) (h : i < l.length) :
    (l.set i v).getD i d = v := by
  simp [List.getD_eq_getElem?_getD, List.getElem?_set_self', List.getElem?_eq_getElem h]

theorem getD_set_ne (l : List α) {i j : Nat} (v d : α) (h : i ≠ j) :
    (l.set i v).getD j d = l.getD j d := by
  simp [List.getD_eq_getElem?_getD, List.getElem?_set_ne h]

theorem getD_default_irrel (l : List α) (j : Nat) (d1 d2 : α) (h : j < l.length) :
    l.getD j d1 = l.getD j d2 := by
  rw [List.getD_eq_getElem?_getD, List.getD_eq_getElem?_getD,
    List.getElem?_eq_getElem h]
  rfl

theorem list_eq_of_getD (a b : List α) (d : α) (hlen : a.length = b.length)
    (h : ∀ j, j < a.length → a.getD j d = b.getD j d) : a = b := by
  apply List.ext_getElem hlen
  intro i h1 h2
  have hj := h i h1
  rwa [List.getD_eq_getElem?_getD, List.getD_eq_getElem?_getD,
    List.getElem?_eq_getElem h1, List.getElem?_eq_getElem h2] at hj

theorem foldl_set_length (v : α) :
    ∀ (idx : List Nat) (a : List α),
      (idx.foldl (fun acc i => acc.set i v) a).length = a.length := by
  intro idx
  induction idx with
  | nil => intro a; rfl
  | cons i rest ih => intro a; rw [List.foldl_cons, ih, List.length_set]

theorem foldl_set_getD (v : α) :
    ∀ (idx : List Nat) (a : List α) (j : Nat) (d : α),
      (idx.foldl (fun acc i => acc.set i v) a).getD j d =
        if j ∈ idx ∧ j < a.length then v else a.getD j d := by
  intro idx
  induction idx with
  | nil => intro a j d; simp
  | cons i rest ih =>
    intro a j d
    rw [List.foldl_cons, ih, List.length_set]
    by_cases hj : j ∈ rest ∧ j < a.length
    · rw [if_pos hj, if_pos ⟨List.mem_cons_of_mem i hj.1, hj.2⟩]
    · rw [if_neg hj]
      by_cases hji : j = i
      · subst hji
        by_cases hlt : j < a.length
        · rw [getD_set_self a j v d hlt, if_pos ⟨List.mem_cons_self j rest, hlt⟩]
        · rw [if_neg (by tauto)]
          have : a.set j v = a := List.set_eq_of_length_le (by omega)
          rw [this]
      · rw [getD_set_ne a v d (fun hh => hji hh.symm)]
        rw [if_neg (by
          intro hc
          rcases List.mem_cons.mp hc.1 with hh | hh
          · exact hji hh
          · exact hj ⟨hh, hc.2⟩)]

/-! ### Move Engine, sequence level (cstl_deque.c lines 1908-1984)

Iterators are logical indices into the element sequence.  `_move_elem_to_begin`
copies the range [t_begin, t_end) down by t_movesize positions, iterating
forward from the first element (lines 1965-1974); `_move_elem_to_end` copies it
up by t_movesize positions, iterating backward from the last element (lines
1928-1937).  Each performed element copy is recorded as a (destination, source)
index pair.  `cinit` stands for the value the TypeDescriptor's init operation
constructs; it is the default for out-of-range reads, which never occur in the
uses below. -/

/-- Loop of `_move_elem_to_begin` (lines 1965-1974): while both cursors are
short of their ends, copy source to target and advance both. -/
def move_begin_loop (cinit : α) (vals : List α) (tb te b e : Nat) :
    List α × List (Nat × Nat) :=
  if h : tb < te ∧ b < e then
    let vals2 := vals.set tb (vals.getD b cinit)
    let rest := move_begin_loop cinit vals2 (tb + 1) te (b + 1) e
    (rest.1, (tb, b) :: rest.2)
  else (vals, [])
termination_by e - b
decreasing_by omega

/-- `_move_elem_to_begin` (lines 1947-1984): if the range is non-empty and the
distance non-zero, run the forward copy loop onto the target range shifted
down by `m`; the function's result iterator is always `e - m`. -/
def move_elem_to_begin (cinit : α) (vals : List α) (b e m : Nat) :
    List α × List (Nat × Nat) × Nat :=
  if b ≠ e ∧ m ≠ 0 then
    ((move_begin_loop cinit vals (b - m) (e - m) b e).1,
     (move_begin_loop cinit vals (b - m) (e - m) b e).2, e - m)
  else (vals, [], e - m)

/-- Loop of `_move_elem_to_end` (lines 1928-1937): `te` and `e` are the
one-past cursors; while both are above their begins, copy the predecessor
elements and step backward. -/
def move_end_loop (cinit : α) (vals : List α) (tb b te e : Nat) :
    List α × List (Nat × Nat) :=
  if h : tb < te ∧ b < e then
    let vals2 := vals.set (te - 1) (vals.getD (e - 1) cinit)
    let rest := move_end_loop cinit vals2 tb b (te - 1) (e - 1)
    (rest.1, (te - 1, e - 1) :: rest.2)
  else (vals, [])
termination_by e

/-- `_move_elem_to_end` (lines 1908-1945): if the range is non-empty and the
distance non-zero, run the backward copy loop onto the target range shifted up
by `m`. -/
def move_elem_to_end (cinit : α) (vals : List α) (b e m : Nat) :
    List α × List (Nat × Nat) :=
  if b ≠ e ∧ m ≠ 0 then move_end_loop cinit vals (b + m) b (e + m) e
  else (vals, [])

theorem move_begin_loop_spec (cinit d : α) :
    ∀ (k : Nat) (vals : List α) (tb b : Nat), tb ≤ b → b + k ≤ vals.length →
      (move_begin_loop cinit vals tb (tb + k) b (b + k)).2
          = (List.range k).map (fun i => (tb + i, b + i)) ∧
      (move_begin_loop cinit vals tb (tb + k) b (b + k)).1.length = vals.length ∧
      ∀ j, (move_begin_loop cinit vals tb (tb + k) b (b + k)).1.getD j d
          = if tb ≤ j ∧ j < tb + k then vals.getD (j + (b - tb)) d
            else vals.getD j d := by
  intro k
  induction k with
  | zero =>
    intro vals tb b h1 h2
    rw [move_begin_loop]
    simp only [Nat.add_zero]
    rw [dif_neg (by omega)]
    refine ⟨by simp, rfl, ?_⟩
    intro j
    rw [if_neg (by omega)]
  | succ n ih =>
    intro vals tb b h1 h2
    rw [move_begin_loop, dif_pos (by omega)]
    have harg1 : tb + (n + 1) = (tb + 1) + n := by omega
    have harg2 : b + (n + 1) = (b + 1) + n := by omega
    rw [harg1, harg2]
    set vals2 := vals.set tb (vals.getD b cinit) with hvals2
    have hlen2 : vals2.length = vals.length := List.length_set vals tb _
    have ihs := ih vals2 (tb + 1) (b + 1) (by omega) (by omega)
    refine ⟨?_, ?_, ?_⟩
    · show (tb, b) :: (move_begin_loop cinit vals2 (tb+1) (tb+1+n) (b+1) (b+1+n)).2 = _
      rw [ihs.1, List.range_succ_eq_map, List.map_cons, List.map_map]
      simp only [Nat.add_zero]
      congr 1
      apply List.map_congr_left
      intro i _
      simp only [Function.comp_apply, Nat.succ_eq_add_one, Prod.mk.injEq]
      omega
    · show (move_begin_loop cinit vals2 (tb+1) (tb+1+n) (b+1) (b+1+n)).1.length = _
      rw [ihs.2.1, hlen2]
    · intro j
      show (move_begin_loop cinit vals2 (tb+1) (tb+1+n) (b+1) (b+1+n)).1.getD j d = _
      rw [ihs.2.2 j]
      by_cases hin : tb + 1 ≤ j ∧ j < tb + 1 + n
      · rw [if_pos hin, if_pos (by omega)]
        have hsh : b + 1 - (tb + 1) = b - tb := by omega
        rw [hsh, hvals2, getD_set_ne vals _ d (by omega)]
      · rw [if_neg hin]
        by_cases hjt : j = tb
        · subst hjt
          rw [if_pos (by omega), hvals2, getD_set_self vals j _ d (by omega)]
          have hjb : j + (b - j) = b := by omega
          rw [hjb]
          exact getD_default_irrel vals b cinit d (by omega)
        · rw [if_neg (by omega), hvals2, getD_set_ne vals _ d (by omega)]

theorem move_end_loop_spec (cinit d : α) :
    ∀ (k : Nat) (vals : List α) (b m : Nat), b + k + m ≤ vals.length →
      (move_end_loop cinit vals (b + m) b (b + m + k) (b + k)).2
          = ((List.range k).reverse).map (fun i => (b + m + i, b + i)) ∧
      (move_end_loop cinit vals (b + m) b (b + m + k) (b + k)).1.length = vals.length ∧
      ∀ j, (move_end_loop cinit vals (b + m) b (b + m + k) (b + k)).1.getD j d
          = if b + m ≤ j ∧ j < b + m + k then vals.getD (j - m) d
            else vals.getD j d := by
  intro k
  induction k with
  | zero =>
    intro vals b m hlen
    rw [move_end_loop]
    simp only [Nat.add_zero]
    rw [dif_neg (by omega)]
    refine ⟨by simp, rfl, ?_⟩
    intro j
    rw [if_neg (by omega)]
  | succ n ih =>
    intro vals b m hlen
    rw [move_end_loop, dif_pos (by omega)]
    have harg1 : b + m + (n + 1) - 1 = b + m + n := by omega
    have harg2 : b + (n + 1) - 1 = b + n := by omega
    rw [harg1, harg2]
    set vals2 := vals.set (b + m + n) (vals.getD (b + n) cinit) with hvals2
    have hlen2 : vals2.length = vals.length := List.length_set vals _ _
    have ihs := ih vals2 b m (by omega)
    refine ⟨?_, ?_, ?_⟩
    · show (b + m + n, b + n) :: (move_end_loop cinit vals2 (b+m) b (b+m+n) (b+n)).2 = _
      rw [ihs.1, List.range_succ, List.reverse_append]
      simp
    · show (move_end_loop cinit vals2 (b+m) b (b+m+n) (b+n)).1.length = _
      rw [ihs.2.1, hlen2]
    · intro j
      show (move_end_loop cinit vals2 (b+m) b (b+m+n) (b+n)).1.getD j d = _
      rw [ihs.2.2 j]
      by_cases hin : b + m ≤ j ∧ j < b + m + n
      · rw [if_pos hin, if_pos (by omega), hvals2,
          getD_set_ne vals _ d (by omega)]
      · rw [if_neg hin]
        by_cases hjt : j = b + m + n
        · subst hjt
          rw [if_pos (by omega), hvals2, getD_set_self vals _ _ d (by omega)]
          have hjb : b + m + n - m = b + n := by omega
          rw [hjb]
          exact getD_default_irrel vals (b + n) cinit d (by omega)
        · rw [if_neg (by omega), hvals2, getD_set_ne vals _ d (by omega)]

/-- Uniform read characterisation of `move_elem_to_begin`: positions in the
target range hold the element `m` positions up, all others are unchanged.
This also covers the degenerate empty-range and zero-distance cases. -/
theorem move_elem_to_begin_getD (cinit d : α) (vals : List α) (b e m : Nat)
    (hm : m ≤ b) (hbe : b ≤ e) (hlen : e ≤ vals.length) :
    (move_elem_to_begin cinit vals b e m).1.length = vals.length ∧
    ∀ j, (move_elem_to_begin cinit vals b e m).1.getD j d
        = if b - m ≤ j ∧ j < e - m then vals.getD (j + m) d else vals.getD j d := by
  unfold move_elem_to_begin
  by_cases hc : b ≠ e ∧ m ≠ 0
  · rw [if_pos hc]
    have hsp := move_begin_loop_spec cinit d (e - b) vals (b - m) b (by omega) (by omega)
    have he2 : b + (e - b) = e := by omega
    have he3 : b - m + (e - b) = e - m := by omega
    have hbm : b - (b - m) = m := by omega
    simp only [he2, he3, hbm] at hsp
    exact ⟨hsp.2.1, hsp.2.2⟩
  · rw [if_neg hc]
    refine ⟨rfl, ?_⟩
    intro j
    rcases Decidable.not_and_iff_or_not.mp hc with hc1 | hc1
    · have hbb : b = e := by omega
      rw [if_neg (by omega)]
    · have hm0 : m = 0 := by omega
      subst hm0
      by_cases hj : b ≤ j ∧ j < e
      · rw [if_pos (by omega)]
        simp
      · rw [if_neg (by omega)]

/-- Copies performed by `move_elem_to_begin`: one forward pass over the source
range, each element copied `m` positions down. -/
theorem move_elem_to_begin_copies (cinit : α) (vals : List α) (b e m : Nat)
    (hm : m ≤ b) (hbe : b ≤ e) (hlen : e ≤ vals.length) :
    (move_elem_to_begin cinit vals b e m).2.1
      = if b = e ∨ m = 0 then []
        else (List.range (e - b)).map (fun i => (b - m + i, b + i)) := by
  unfold move_elem_to_begin
  by_cases hc : b ≠ e ∧ m ≠ 0
  · rw [if_pos hc, if_neg (by tauto)]
    have hsp := move_begin_loop_spec cinit cinit (e - b) vals (b - m) b (by omega) (by omega)
    have he2 : b + (e - b) = e := by omega
    have he3 : b - m + (e - b) = e - m := by omega
    simp only [he2, he3] at hsp
    exact hsp.1
  · rw [if_neg hc, if_pos (by tauto)]

/-- Read characterisation of `move_elem_to_end`: positions in the target range
hold the element `m` positions down, all others are unchanged. -/
theorem move_elem_to_end_getD (cinit d : α) (vals : List α) (b e m : Nat)
    (hbe : b ≤ e) (hlen : e + m ≤ vals.length) :
    (move_elem_to_end cinit vals b e m).1.length = vals.length ∧
    ∀ j, (move_elem_to_end cinit vals b e m).1.getD j d
        = if b + m ≤ j ∧ j < e + m then vals.getD (j - m) d else vals.getD j d := by
  unfold move_elem_to_end
  by_cases hc : b ≠ e ∧ m ≠ 0
  · rw [if_pos hc]
    have hsp := move_end_loop_spec cinit d (e - b) vals b m (by omega)
    have he1 : b + m + (e - b) = e + m := by omega
    have he2 : b + (e - b) = e := by omega
    simp only [he1, he2] at hsp
    exact ⟨hsp.2.1, hsp.2.2⟩
  · rw [if_neg hc]
    refine ⟨rfl, ?_⟩
    intro j
    rcases Decidable.not_and_iff_or_not.mp hc with hc1 | hc1
    · have hbb : b = e := by omega
      rw [if_neg (by omega)]
    · have hm0 : m = 0 := by omega
      subst hm0
      by_cases hj : b ≤ j ∧ j < e
      · rw [if_pos (by omega)]
        simp
      · rw [if_neg (by omega)]

/-- Copies performed by `move_elem_to_end`: one backward pass over the source
range, each element copied `m` positions up. -/
theorem move_elem_to_end_copies (cinit : α) (vals : List α) (b e m : Nat)
    (hbe : b ≤ e) (hlen : e + m ≤ vals.length) :
    (move_elem_to_end cinit vals b e m).2
      = if b = e ∨ m = 0 then []
        else ((List.range (e - b)).reverse).map (fun i => (b + m + i, b + i)) := by
  unfold move_elem_to_end
  by_cases hc : b ≠ e ∧ m ≠ 0
  · rw [if_pos hc, if_neg (by tauto)]
    have hsp := move_end_loop_spec cinit cinit (e - b) vals b m (by omega)
    have he1 : b + m + (e - b) = e + m := by omega
    have he2 : b + (e - b) = e := by omega
    simp only [he1, he2] at hsp
    exact hsp.1
  · rw [if_neg hc, if_pos (by tauto)]

/-! ### Facade mutators, sequence level (cstl_deque.c lines 1071-1345)

The Shrink Engine at this level only records which logical elements are
destroyed; its Block bookkeeping is modelled separately below.  The clamp
`t_shrinksize < deque_size ? t_shrinksize : deque_size` (lines 1847, 1882)
is `min`. -/

/-- `_shrink_at_end` (lines 1836-1871), element-sequence effect: destroy the
last `min k n` elements.  The destroyed positions are indices of the sequence
the function was given. -/
def shrink_at_end_seq (xs : List α) (k : Nat) : List α × List Nat :=
  (xs.take (xs.length - min k xs.length),
   List.range' (xs.length - min k xs.length) (min k xs.length))

/-- `_shrink_at_begin` (lines 1873-1906), element-sequence effect: destroy the
first `min k n` elements. -/
def shrink_at_begin_seq (xs : List α) (k : Nat) : List α × List Nat :=
  (xs.drop (min k xs.length), List.range' 0 (min k xs.length))

/-- `deque_pop_front` (lines 1113-1117): `_shrink_at_begin(pt_deque, 1)`. -/
def deque_pop_front (xs : List α) : List α × List Nat := shrink_at_begin_seq xs 1

/-- `deque_pop_back` (lines 1090-1094): `_shrink_at_end(pt_deque, 1)`. -/
def deque_pop_back (xs : List α) : List α × List Nat := shrink_at_end_seq xs 1

/-- Result of `_deque_insert_n_varg`: the new element sequence together with
which branch ran, every Move-Engine element copy, every copy of the inserted
value (`fills`), every element destroy, and the logical index of the returned
iterator.  All indices are in the post-expansion sequence. -/
structure InsertResult (α : Type) where
  vals : List α
  frontBranch : Bool
  copies : List (Nat × Nat)
  fills : List Nat
  destroys : List Nat
  retPos : Nat
deriving DecidableEq, Repr

/-- `_deque_insert_n_varg` (lines 1132-1192) inserting `cnt` copies of `v` at
logical position `p` of `xs`.  The front branch runs when
`iterator_distance(begin, pos) < (int)deque_size / 2` (line 1148):
`_expand_at_begin` prepends `cnt` constructed slots (so the old begin is at
index `cnt` and `pos` at `cnt + p`), `_move_elem_to_begin` shifts
`[old begin, pos)` down by `cnt`, and the loop at lines 1159-1165 copies `v`
into the freed gap `[gap, pos)`.  The back branch is symmetric at the end
(lines 1169-1186). -/
def deque_insert_n (cinit : α) (xs : List α) (p cnt : Nat) (v : α) :
    InsertResult α :=
  if p < xs.length / 2 then
    let vals0 := List.replicate cnt cinit ++ xs
    let mv := move_elem_to_begin cinit vals0 cnt (cnt + p) cnt
    let fillIdx := List.range' mv.2.2 (cnt + p - mv.2.2)
    { vals := fillIdx.foldl (fun a j => a.set j v) mv.1,
      frontBranch := true, copies := mv.2.1, fills := fillIdx,
      destroys := [], retPos := mv.2.2 }
  else
    let vals0 := xs ++ List.replicate cnt cinit
    let mv := move_elem_to_end cinit vals0 p xs.length cnt
    let fillIdx := List.range' p cnt
    { vals := fillIdx.foldl (fun a j => a.set j v) mv.1,
      frontBranch := false, copies := mv.2, fills := fillIdx,
      destroys := [], retPos := p }

/-- Result of `deque_erase`: new sequence, Move-Engine copies, destroyed
positions, number of Move-Engine invocations, and the returned iterator's
logical index.  Indices are in the pre-erase sequence. -/
structure EraseResult (α : Type) where
  vals : List α
  copies : List (Nat × Nat)
  destroys : List Nat
  moveCalls : Nat
  retPos : Nat
deriving DecidableEq, Repr

/-- `deque_erase` (lines 1249-1274): erasing the first position delegates to
`deque_pop_front` and returns begin; erasing the last position delegates to
`deque_pop_back` and returns end; otherwise `_move_elem_to_begin` shifts
`[pos+1, end)` down by one and `_shrink_at_end(1)` drops the stale last
slot. -/
def deque_erase (cinit : α) (xs : List α) (p : Nat) : EraseResult α :=
  if p = 0 then
    { vals := (deque_pop_front xs).1, copies := [],
      destroys := (deque_pop_front xs).2, moveCalls := 0, retPos := 0 }
  else if p = xs.length - 1 then
    { vals := (deque_pop_back xs).1, copies := [],
      destroys := (deque_pop_back xs).2, moveCalls := 0,
      retPos := (deque_pop_back xs).1.length }
  else
    { vals := (shrink_at_end_seq (move_elem_to_begin cinit xs (p + 1) xs.length 1).1 1).1,
      copies := (move_elem_to_begin cinit xs (p + 1) xs.length 1).2.1,
      destroys := (shrink_at_end_seq (move_elem_to_begin cinit xs (p + 1) xs.length 1).1 1).2,
      moveCalls := 1, retPos := p }

/-- `deque_erase_range` (lines 1276-1287): `_move_elem_to_begin(t_end, end,
distance(t_begin, t_end))` then `_shrink_at_end` by the same distance; returns
`t_begin`.  Result: (sequence, Move-Engine copies, destroyed positions,
returned index). -/
def deque_erase_range (cinit : α) (xs : List α) (b e : Nat) :
    List α × List (Nat × Nat) × List Nat × Nat :=
  ((shrink_at_end_seq (move_elem_to_begin cinit xs e xs.length (e - b)).1 (e - b)).1,
   (move_elem_to_begin cinit xs e xs.length (e - b)).2.1,
   (shrink_at_end_seq (move_elem_to_begin cinit xs e xs.length (e - b)).1 (e - b)).2,
   b)

/-- The element sequence produced by `_deque_insert_n_varg` is the original
with `cnt` copies of `v` spliced in at position `p`, whichever branch runs. -/
theorem deque_insert_n_vals (cinit : α) (xs : List α) (p cnt : Nat) (v : α)
    (hp : p ≤ xs.length) :
    (deque_insert_n cinit xs p cnt v).vals
      = xs.take p ++ List.replicate cnt v ++ xs.drop p := by
  have hlenR : (xs.take p ++ List.replicate cnt v ++ xs.drop p).length
      = cnt + xs.length := by
    simp [List.length_append, List.length_take, List.length_drop]
    omega
  unfold deque_insert_n
  by_cases hbr : p < xs.length / 2
  · rw [if_pos hbr]
    simp only
    set vals0 := List.replicate cnt cinit ++ xs with hv0
    have hlen0 : vals0.length = cnt + xs.length := by
      simp [hv0]
    have hmv := move_elem_to_begin_getD cinit cinit vals0 cnt (cnt + p) cnt
      (by omega) (by omega) (by omega)
    have hret : (move_elem_to_begin cinit vals0 cnt (cnt + p) cnt).2.2 = p := by
      unfold move_elem_to_begin
      split <;> simp
    rw [hret]
    apply list_eq_of_getD _ _ cinit
    · rw [foldl_set_length, hmv.1, hlen0, hlenR]
    · intro j hj
      rw [foldl_set_length, hmv.1, hlen0] at hj
      rw [foldl_set_getD, hmv.1, hmv.2 j]
      have hget0 : ∀ i,
          vals0.getD i cinit = if i < cnt then cinit else xs.getD (i - cnt) cinit := by
        intro i
        rw [hv0, List.getD_eq_getElem?_getD, List.getElem?_append]
        by_cases hic : i < cnt
        · rw [if_pos (by simpa using hic), if_pos hic]
          simp [List.getElem?_replicate, hic]
        · rw [if_neg (by simpa using hic), if_neg hic]
          simp [List.getD_eq_getElem?_getD]
      have hgetR : (xs.take p ++ List.replicate cnt v ++ xs.drop p).getD j cinit
          = if j < p then xs.getD j cinit
            else if j < p + cnt then v else xs.getD (j - cnt) cinit := by
        rw [List.getD_eq_getElem?_getD, List.append_assoc, List.getElem?_append]
        by_cases hjp : j < p
        · rw [if_pos (by simp [List.length_take]; omega), if_pos hjp]
          rw [List.getElem?_take_of_lt hjp]
          simp [List.getD_eq_getElem?_getD]
        · rw [if_neg (by simp [List.length_take]; omega), if_neg hjp]
          rw [List.getElem?_append]
          have hlt : (xs.take p).length = p := by simp [List.length_take]; omega
          by_cases hjc : j < p + cnt
          · rw [if_pos (by simp [hlt, List.length_replicate]; omega), if_pos hjc]
            rw [List.getElem?_replicate]
            rw [if_pos (by omega)]
            rfl
          · rw [if_neg (by simp [hlt, List.length_replicate]; omega), if_neg hjc]
            rw [List.getElem?_drop]
            rw [hlt]
            simp only [List.length_replicate]
            have harith : p + (j - p - cnt) = j - cnt := by omega
            rw [harith]
            simp [List.getD_eq_getElem?_getD]
      rw [hgetR]
      simp only [hget0, List.mem_range'_1]
      split_ifs <;> first
        | rfl
        | omega
        | (congr 1; omega)
        | (exfalso; omega)
  · rw [if_neg hbr]
    simp only
    set vals0 := xs ++ List.replicate cnt cinit with hv0
    have hlen0 : vals0.length = xs.length + cnt := by simp [hv0]
    have hmv := move_elem_to_end_getD cinit cinit vals0 p xs.length cnt
      (by omega) (by omega)
    apply list_eq_of_getD _ _ cinit
    · rw [foldl_set_length, hmv.1, hlen0, hlenR]
      omega
    · intro j hj
      rw [foldl_set_length, hmv.1, hlen0] at hj
      rw [foldl_set_getD, hmv.1, hmv.2 j]
      have hget0 : ∀ i, vals0.getD i cinit
          = if i < xs.length then xs.getD i cinit else cinit := by
        intro i
        rw [hv0, List.getD_eq_getElem?_getD, List.getElem?_append]
        by_cases hic : i < xs.length
        · rw [if_pos (by simpa using hic), if_pos hic]
          simp [List.getD_eq_getElem?_getD]
        · rw [if_neg (by simpa using hic), if_neg hic]
          rw [List.getElem?_replicate]
          by_cases hi2 : i - xs.length < cnt
          · rw [if_pos hi2]; rfl
          · rw [if_neg hi2]; rfl
      have hgetR : (xs.take p ++ List.replicate cnt v ++ xs.drop p).getD j cinit
          = if j < p then xs.getD j cinit
            else if j < p + cnt then v else xs.getD (j - cnt) cinit := by
        rw [List.getD_eq_getElem?_getD, List.append_assoc, List.getElem?_append]
        by_cases hjp : j < p
        · rw [if_pos (by simp [List.length_take]; omega), if_pos hjp]
          rw [List.getElem?_take_of_lt hjp]
          simp [List.getD_eq_getElem?_getD]
        · rw [if_neg (by simp [List.length_take]; omega), if_neg hjp]
          rw [List.getElem?_append]
          have hlt : (xs.take p).length = p := by simp [List.length_take]; omega
          by_cases hjc : j < p + cnt
          · rw [if_pos (by simp [hlt, List.length_replicate]; omega), if_pos hjc]
            rw [List.getElem?_replicate]
            rw [if_pos (by omega)]
            rfl
          · rw [if_neg (by simp [hlt, List.length_replicate]; omega), if_neg hjc]
            rw [List.getElem?_drop]
            rw [hlt]
            simp only [List.length_replicate]
            have harith : p + (j - p - cnt) = j - cnt := by omega
            rw [harith]
            simp [List.getD_eq_getElem?_getD]
      rw [hgetR]
      simp only [hget0, List.mem_range'_1]
      split_ifs <;> first
        | rfl
        | omega
        | (congr 1; omega)
        | (exfalso; omega)

/-- Frame effect of a front-half insert, claim C1's property at one input:
the front branch runs; the result is the original with `cnt` copies of `v`
spliced in at `p`; the Move Engine copies exactly the elements originally in
`[begin, pos)` (post-expansion positions `cnt .. cnt+p-1`) down by `cnt`; the
value fills land exactly in the gap `[p, cnt+p)`; no element is destroyed; no
copy or fill touches a position at or above `cnt + p`; and every element
originally in `[pos, end)` keeps its value at its shifted position. -/
def insert_front_spec (cinit : α) (xs : List α) (p cnt : Nat) (v : α) : Prop :=
  (deque_insert_n cinit xs p cnt v).frontBranch = true ∧
  (deque_insert_n cinit xs p cnt v).vals
      = xs.take p ++ List.replicate cnt v ++ xs.drop p ∧
  (0 < cnt → (deque_insert_n cinit xs p cnt v).copies
      = (List.range p).map fun i => (i, cnt + i)) ∧
  (cnt = 0 → (deque_insert_n cinit xs p cnt v).copies = []) ∧
  (deque_insert_n cinit xs p cnt v).fills = List.range' p cnt ∧
  (deque_insert_n cinit xs p cnt v).destroys = [] ∧
  (∀ c ∈ (deque_insert_n cinit xs p cnt v).copies, c.1 < p ∧ c.2 < cnt + p) ∧
  (∀ q ∈ (deque_insert_n cinit xs p cnt v).fills, p ≤ q ∧ q < cnt + p) ∧
  (∀ j, j < xs.length → p ≤ j →
    (deque_insert_n cinit xs p cnt v).vals.getD (cnt + j) cinit = xs.getD j cinit)

/-- Claim C1: for every insert position in the front half
(`distance(begin, pos) < size / 2`), inserting `cnt` copies of a value
expands at the begin end and relocates only the elements originally in
`[begin, pos)` toward the front by `cnt`; every element originally in
`[pos, end)` keeps its value and is neither copied nor destroyed. -/
theorem insert_front_half_frame (cinit : α) (xs : List α) (p cnt : Nat) (v : α)
    (h : p < xs.length / 2) : insert_front_spec cinit xs p cnt v := by
  have hp : p ≤ xs.length := by omega
  have hvals := deque_insert_n_vals cinit xs p cnt v hp
  have hfb : (deque_insert_n cinit xs p cnt v).frontBranch = true := by
    unfold deque_insert_n
    rw [if_pos h]
  have hlen0 : (List.replicate cnt cinit ++ xs).length = cnt + xs.length := by
    simp
  have hret : (move_elem_to_begin cinit (List.replicate cnt cinit ++ xs)
      cnt (cnt + p) cnt).2.2 = p := by
    unfold move_elem_to_begin
    split <;> simp
  have hcopies := move_elem_to_begin_copies cinit (List.replicate cnt cinit ++ xs)
    cnt (cnt + p) cnt (by omega) (by omega) (by omega)
  have hcopeq : (deque_insert_n cinit xs p cnt v).copies
      = (move_elem_to_begin cinit (List.replicate cnt cinit ++ xs)
          cnt (cnt + p) cnt).2.1 := by
    unfold deque_insert_n
    rw [if_pos h]
  have hfills : (deque_insert_n cinit xs p cnt v).fills = List.range' p cnt := by
    unfold deque_insert_n
    rw [if_pos h]
    simp only [hret]
    congr 1
    omega
  have hdes : (deque_insert_n cinit xs p cnt v).destroys = [] := by
    unfold deque_insert_n
    rw [if_pos h]
  have hcop1 : 0 < cnt → (deque_insert_n cinit xs p cnt v).copies
      = (List.range p).map fun i => (i, cnt + i) := by
    intro hcnt
    rw [hcopeq, hcopies]
    by_cases hp0 : p = 0
    · subst hp0
      rw [if_pos (by omega)]
      simp
    · rw [if_neg (by omega)]
      have harith : cnt + p - cnt = p := by omega
      have harith2 : cnt - cnt = 0 := by omega
      rw [harith]
      apply List.map_congr_left
      intro i hi
      dsimp only
      rw [harith2]
      simp
  have hcop0 : cnt = 0 → (deque_insert_n cinit xs p cnt v).copies = [] := by
    intro hcnt
    rw [hcopeq, hcopies, if_pos (Or.inr hcnt)]
  refine ⟨hfb, hvals, hcop1, hcop0, hfills, hdes, ?_, ?_, ?_⟩
  · intro c hc
    by_cases hcnt : cnt = 0
    · rw [hcop0 hcnt] at hc
      simp at hc
    · rw [hcop1 (by omega)] at hc
      rcases List.mem_map.mp hc with ⟨i, hi, hci⟩
      have hip : i < p := List.mem_range.mp hi
      rw [← hci]
      dsimp only
      exact ⟨by omega, by omega⟩
  · intro q hq
    rw [hfills] at hq
    have := List.mem_range'_1.mp hq
    omega
  · intro j hjlen hjp
    rw [hvals, List.getD_eq_getElem?_getD, List.append_assoc, List.getElem?_append]
    rw [if_neg (by simp [List.length_take]; omega)]
    rw [List.getElem?_append]
    rw [if_neg (by simp [List.length_take, List.length_replicate]; omega)]
    rw [List.getElem?_drop]
    have hlt : (xs.take p).length = p := by simp [List.length_take]; omega
    rw [hlt]
    simp only [List.length_replicate]
    have harith : p + (cnt + j - p - cnt) = j := by omega
    rw [harith]
    simp [List.getD_eq_getElem?_getD]

theorem insert_front_half_frame_witness :
    1 < ([10, 20, 30, 40, 50] : List Nat).length / 2 ∧
    insert_front_spec 0 [10, 20, 30, 40, 50] 1 2 7 :=
  ⟨by decide, insert_front_half_frame 0 [10, 20, 30, 40, 50] 1 2 7 (by decide)⟩

/-- The element sequence produced by `deque_erase` at a valid position is the
original with that element removed. -/
theorem deque_erase_vals (cinit : α) (xs : List α) (p : Nat) (hp : p < xs.length) :
    (deque_erase cinit xs p).vals = xs.take p ++ xs.drop (p + 1) := by
  unfold deque_erase
  by_cases h0 : p = 0
  · subst h0
    rw [if_pos rfl]
    simp only [deque_pop_front, shrink_at_begin_seq]
    rw [min_eq_left (by omega)]
    simp
  · rw [if_neg h0]
    by_cases hlast : p = xs.length - 1
    · rw [if_pos hlast]
      simp only [deque_pop_back, shrink_at_end_seq]
      rw [min_eq_left (by omega)]
      have h1 : xs.take p ++ xs.drop (p + 1) = xs.take p := by
        have : xs.drop (p + 1) = [] := List.drop_eq_nil_of_le (by omega)
        rw [this, List.append_nil]
      rw [h1]
      congr 1
      omega
    · rw [if_neg hlast]
      simp only
      have hmv := move_elem_to_begin_getD cinit cinit xs (p + 1) xs.length 1
        (by omega) (by omega) (by omega)
      simp only [shrink_at_end_seq]
      rw [hmv.1, min_eq_left (by omega)]
      apply list_eq_of_getD _ _ cinit
      · rw [List.length_take, hmv.1]
        simp [List.length_take, List.length_drop]
        omega
      · intro j hj
        rw [List.length_take, hmv.1] at hj
        rw [List.getD_eq_getElem?_getD, List.getElem?_take_of_lt (by omega),
          ← List.getD_eq_getElem?_getD, hmv.2 j]
        have hgetR : (xs.take p ++ xs.drop (p + 1)).getD j cinit
            = if j < p then xs.getD j cinit else xs.getD (j + 1) cinit := by
          rw [List.getD_eq_getElem?_getD, List.getElem?_append]
          have hlt : (xs.take p).length = p := by simp [List.length_take]; omega
          by_cases hjp : j < p
          · rw [if_pos (by simp [List.length_take]; omega), if_pos hjp,
              List.getElem?_take_of_lt hjp]
            simp [List.getD_eq_getElem?_getD]
          · rw [if_neg (by simp [List.length_take]; omega), if_neg hjp, hlt,
              List.getElem?_drop]
            have harith : p + 1 + (j - p) = j + 1 := by omega
            rw [harith]
            simp [List.getD_eq_getElem?_getD]
        rw [hgetR]
        split_ifs <;> first | rfl | omega | (exfalso; omega)

/-- Behaviour of `deque_erase` at the first, last and interior positions,
claim C6's property at one input. -/
def erase_claim_spec (cinit : α) (xs : List α) : Prop :=
  deque_erase cinit xs 0
      = { vals := (deque_pop_front xs).1, copies := [],
          destroys := (deque_pop_front xs).2, moveCalls := 0, retPos := 0 } ∧
  deque_erase cinit xs (xs.length - 1)
      = { vals := (deque_pop_back xs).1, copies := [],
          destroys := (deque_pop_back xs).2, moveCalls := 0,
          retPos := (deque_pop_back xs).1.length } ∧
  ∀ p, 0 < p → p + 1 < xs.length →
    deque_erase cinit xs p
      = { vals := xs.take p ++ xs.drop (p + 1),
          copies := (List.range' p (xs.length - 1 - p)).map (fun i => (i, i + 1)),
          destroys := [xs.length - 1], moveCalls := 1, retPos := p }

/-- Claim C6: erase at the first logical position behaves exactly as
`deque_pop_front` and erase at the last position exactly as `deque_pop_back`,
in both cases without invoking the Move Engine; at an interior position the
Move Engine shifts `[pos+1, end)` down by one and the deque shrinks by one at
the back, so the result is the original sequence with the element at `pos`
removed. -/
theorem erase_first_last_interior (cinit : α) (xs : List α) (h : xs ≠ []) :
    erase_claim_spec cinit xs := by
  have hlen : 0 < xs.length := List.length_pos.mpr h
  refine ⟨?_, ?_, ?_⟩
  · unfold deque_erase
    rw [if_pos rfl]
  · unfold deque_erase
    by_cases h1 : xs.length - 1 = 0
    · rw [if_pos h1]
      have hxs1 : xs.length = 1 := by omega
      rcases xs with _ | ⟨x, xs2⟩
      · simp at hxs1
      · have hxs2 : xs2 = [] := by
          have h0 : xs2.length = 0 := by simpa using hxs1
          exact List.eq_nil_of_length_eq_zero h0
        subst hxs2
        simp [deque_pop_front, deque_pop_back, shrink_at_begin_seq,
          shrink_at_end_seq]
    · rw [if_neg (by omega), if_pos rfl]
  · intro p hp0 hpl
    unfold deque_erase
    rw [if_neg (by omega), if_neg (by omega)]
    have hmv := move_elem_to_begin_getD cinit cinit xs (p + 1) xs.length 1
      (by omega) (by omega) (by omega)
    have hvals : (deque_erase cinit xs p).vals = xs.take p ++ xs.drop (p + 1) :=
      deque_erase_vals cinit xs p (by omega)
    unfold deque_erase at hvals
    rw [if_neg (by omega), if_neg (by omega)] at hvals
    have hcop := move_elem_to_begin_copies cinit xs (p + 1) xs.length 1
      (by omega) (by omega) (by omega)
    rw [if_neg (by omega)] at hcop
    congr 1
    · rw [hcop]
      have harith : xs.length - (p + 1) = xs.length - 1 - p := by omega
      rw [harith, List.range'_eq_map_range, List.map_map]
      apply List.map_congr_left
      intro i hi
      have hir : i < xs.length - 1 - p := List.mem_range.mp hi
      simp only [Function.comp_apply, Prod.mk.injEq]
      omega
    · simp only [shrink_at_end_seq]
      rw [hmv.1, min_eq_left (by omega)]
      exact List.range'_one

theorem erase_first_last_interior_witness :
    ([3, 1, 4, 1, 5] : List Nat) ≠ [] ∧ erase_claim_spec 0 [3, 1, 4, 1, 5] :=
  ⟨by decide, erase_first_last_interior 0 [3, 1, 4, 1, 5] (by decide)⟩

/-- Claim C7: inserting one copy of `v` at a valid position `p` and then
erasing at `p` returns the deque to its original element sequence. -/
theorem insert_erase_roundtrip (cinit : α) (xs : List α) (p : Nat) (v : α)
    (h : p ≤ xs.length) :
    (deque_erase cinit (deque_insert_n cinit xs p 1 v).vals p).vals = xs := by
  have hvals := deque_insert_n_vals cinit xs p 1 v h
  set ys := (deque_insert_n cinit xs p 1 v).vals with hys
  have hylen : ys.length = xs.length + 1 := by
    rw [hvals]
    simp [List.length_take, List.length_drop]
    omega
  rw [deque_erase_vals cinit ys p (by omega)]
  rw [hvals]
  have htake : (xs.take p ++ List.replicate 1 v ++ xs.drop p).take p = xs.take p := by
    rw [List.append_assoc, List.take_append_of_le_length (by simp [List.length_take]; omega)]
    rw [List.take_take]
    congr 1
    omega
  have hdrop : (xs.take p ++ List.replicate 1 v ++ xs.drop p).drop (p + 1) = xs.drop p := by
    rw [List.append_assoc, List.drop_append_eq_append_drop]
    have hlt : (xs.take p).length = p := by simp [List.length_take]; omega
    rw [List.drop_eq_nil_of_le (by omega), hlt]
    simp
  rw [htake, hdrop, List.take_append_drop]

theorem insert_erase_roundtrip_witness :
    1 ≤ ([10, 20, 30] : List Nat).length ∧
    (deque_erase 0 (deque_insert_n 0 [10, 20, 30] 1 1 7).vals 1).vals = [10, 20, 30] :=
  ⟨by decide, insert_erase_roundtrip 0 [10, 20, 30] 1 7 (by decide)⟩

/-- Claim C10: `deque_erase_range` over an empty range `[p, p)` performs no
element copy and no destruction, leaves the sequence (size and every element)
unchanged, and returns `p`. -/
theorem erase_range_empty_noop (cinit : α) (xs : List α) (p : Nat)
    (h : p ≤ xs.length) :
    deque_erase_range cinit xs p p = (xs, [], [], p) := by
  unfold deque_erase_range
  have hz : p - p = 0 := by omega
  rw [hz]
  have hmv : move_elem_to_begin cinit xs p xs.length 0 = (xs, [], xs.length - 0) := by
    unfold move_elem_to_begin
    rw [if_neg (by omega)]
  rw [hmv]
  simp only [shrink_at_end_seq]
  rw [min_eq_left (by omega)]
  simp

theorem erase_range_empty_noop_witness :
    1 ≤ ([4, 5] : List Nat).length ∧
    deque_erase_range 0 [4, 5] 1 1 = ([4, 5], [], [], 1) :=
  ⟨by decide, erase_range_empty_noop 0 [4, 5] 1 (by decide)⟩

/-! ### Block/map-level model (cstl_deque.c lines 475-561 and 1496-1906)

The state keeps the map size (`_t_mapsize`), which map slots currently own a
Block (`_ppc_map[j] != NULL`, as a `List Bool`), and the start and finish
iterators as (map slot index, offset within the Block, 0..16).  Offset 16 is
the `corepos == afterlast` boundary alias the code uses for the start
iterator of a freshly initialised deque (line 544).  A Block holds 16
element slots, so an iterator's linear element position is
`16 * block + offset`; `deque_size` (line 794) is the linear distance from
start to finish. -/

structure DequeState where
  mapsize : Nat
  alloc : List Bool
  startB : Nat
  startOff : Nat
  finB : Nat
  finOff : Nat
deriving DecidableEq, Repr

/-- Linear element position of an iterator at (block, offset). -/
def lin (b off : Nat) : Nat := 16 * b + off

/-- `deque_size` (line 794): distance from the start to the finish iterator. -/
def dsize (s : DequeState) : Nat :=
  lin s.finB s.finOff - lin s.startB s.startOff

/-- `t_remainmapsize` (lines 1535-1536, 1684-1687): map slots outside the
current valid run. -/
def spare_map_slots (s : DequeState) : Nat :=
  s.mapsize - (s.finB - s.startB + 1)

/-- Number of fresh Blocks an expansion by `t` needs, given `remain` unused
slots in the boundary Block (lines 1525-1531 and 1674-1680):
`t_containersize = ceil(t_nomemsize / 16)`, plus one more when
`t_nomemsize` is an exact multiple of 16 so that the boundary iterator lands
strictly inside a Block. -/
def needed_blocks (remain t : Nat) : Nat :=
  if (t - remain) % 16 = 0 then (t - remain + 15) / 16 + 1
  else (t - remain + 15) / 16

/-- Write `v` into map slots `[i, i + len)` (the Block allocation loops at
lines 1617-1624 and 1781-1788, and the deallocation loops of the Shrink
Engine). -/
def alloc_range (a : List Bool) (i len : Nat) (v : Bool) : List Bool :=
  (List.range' i len).foldl (fun acc j => acc.set j v) a

/-- One step of `_deque_iterator_prev` (lines 280-304) on a (block, offset)
pair; the offset is an integer because the C code moves `corepos` below
`first` before testing.  The block only moves while above the container's
start block. -/
def iter_prev_step (startB : Nat) (it : Nat × Int) : Nat × Int :=
  if it.2 - 1 < 0 then
    if startB < it.1 then (it.1 - 1, 15) else (it.1, it.2 - 1)
  else (it.1, it.2 - 1)

/-- One step of `_deque_iterator_next` (lines 251-278).  The block only moves
while below the container's finish block. -/
def iter_next_step (finB : Nat) (it : Nat × Int) : Nat × Int :=
  if 16 ≤ it.2 + 1 then
    if it.1 < finB then (it.1 + 1, it.2 + 1 - 16) else (it.1, it.2 + 1)
  else (it.1, it.2 + 1)

/-- `_shrink_at_end` (lines 1836-1871): clamp the count to the size, step the
finish iterator back that many times, destroy the elements between the new
and the old finish (their number is the linear distance), move `_t_finish`,
and free every Block from the slot after the new finish block up to the old
finish block, nulling those map slots.  Returns (new state, destroyed
element count, freed slot indices). -/
def shrink_at_end (s : DequeState) (k : Nat) : DequeState × Nat × List Nat :=
  ({ s with
      finB := ((iter_prev_step s.startB)^[min k (dsize s)] (s.finB, (s.finOff : Int))).1,
      finOff := ((iter_prev_step s.startB)^[min k (dsize s)] (s.finB, (s.finOff : Int))).2.toNat,
      alloc := alloc_range s.alloc
        (((iter_prev_step s.startB)^[min k (dsize s)] (s.finB, (s.finOff : Int))).1 + 1)
        (s.finB - ((iter_prev_step s.startB)^[min k (dsize s)] (s.finB, (s.finOff : Int))).1)
        false },
   lin s.finB s.finOff
     - lin ((iter_prev_step s.startB)^[min k (dsize s)] (s.finB, (s.finOff : Int))).1
         ((iter_prev_step s.startB)^[min k (dsize s)] (s.finB, (s.finOff : Int))).2.toNat,
   List.range'
     (((iter_prev_step s.startB)^[min k (dsize s)] (s.finB, (s.finOff : Int))).1 + 1)
     (s.finB - ((iter_prev_step s.startB)^[min k (dsize s)] (s.finB, (s.finOff : Int))).1))

/-- `_shrink_at_begin` (lines 1873-1906): clamp the count, step the start
iterator forward that many times, destroy the passed elements, move
`_t_start`, and free every Block from the slot before the new start block
down to the old start block. -/
def shrink_at_begin (s : DequeState) (k : Nat) : DequeState × Nat × List Nat :=
  ({ s with
      startB := ((iter_next_step s.finB)^[min k (dsize s)] (s.startB, (s.startOff : Int))).1,
      startOff := ((iter_next_step s.finB)^[min k (dsize s)] (s.startB, (s.startOff : Int))).2.toNat,
      alloc := alloc_range s.alloc s.startB
        (((iter_next_step s.finB)^[min k (dsize s)] (s.startB, (s.startOff : Int))).1 - s.startB)
        false },
   lin ((iter_next_step s.finB)^[min k (dsize s)] (s.startB, (s.startOff : Int))).1
       ((iter_next_step s.finB)^[min k (dsize s)] (s.startB, (s.startOff : Int))).2.toNat
     - lin s.startB s.startOff,
   (List.range' s.startB
     (((iter_next_step s.finB)^[min k (dsize s)] (s.startB, (s.startOff : Int))).1 - s.startB)).reverse)

/-- `_expand_at_end` (lines 1496-1643).  If the finish Block has strictly
more unused slots than requested (`t_expandsize < t_remainsize`, line 1508),
only the finish offset moves.  Otherwise compute the needed Block count; if
it exceeds the total spare map slots, reallocate a directory grown by
`ceil(shortfall / 8) * 8` (lines 1540-1586), recentring the valid run;
else if it exceeds the spare slots after the finish block, shift the valid
run left within the directory (lines 1588-1614); then allocate the new
Blocks after the (possibly moved) old finish block and set the new finish
iterator (lines 1617-1637).  Returns (new state, Blocks allocated, elements
constructed = linear distance from old to new finish). -/
def expand_at_end (s : DequeState) (t : Nat) : DequeState × Nat × Nat :=
  if t < 16 - s.finOff then
    ({ s with finOff := s.finOff + t }, 0,
     lin s.finB (s.finOff + t) - lin s.finB s.finOff)
  else
    let csize := needed_blocks (16 - s.finOff) t
    let validend := (t - (16 - s.finOff)) % 16
    let remainend := s.mapsize - s.finB - 1
    let res :=
      if spare_map_slots s < csize then
        let validmapsize := s.finB - s.startB + 1
        let oldmapstart := (s.mapsize - validmapsize) / 2
        let mapsize2 := s.mapsize + (csize - spare_map_slots s + 7) / 8 * 8
        let newmapstart := (mapsize2 - (validmapsize + csize)) / 2
        ((mapsize2 : Nat),
         (List.range mapsize2).map fun j =>
           if newmapstart ≤ j ∧ j < newmapstart + validmapsize then
             s.alloc.getD (oldmapstart + (j - newmapstart)) false
           else false,
         newmapstart + validmapsize - 1,
         newmapstart)
      else if remainend < csize then
        let oldvalid := s.finB - s.startB + 1
        let movesize := (s.mapsize - oldvalid) / 2 - (s.mapsize - (oldvalid + csize)) / 2
        (s.mapsize,
         (List.range s.alloc.length).map fun j =>
           if s.startB - movesize ≤ j ∧ j < s.startB - movesize + oldvalid then
             s.alloc.getD (j + movesize) false
           else s.alloc.getD j false,
         s.finB - movesize,
         s.startB - movesize)
      else (s.mapsize, s.alloc, s.finB, s.startB)
    ({ mapsize := res.1,
       alloc := alloc_range res.2.1 (res.2.2.1 + 1) csize true,
       startB := res.2.2.2, startOff := s.startOff,
       finB := res.2.2.1 + csize, finOff := validend },
     csize,
     lin (res.2.2.1 + csize) validend - lin res.2.2.1 s.finOff)

/-- `_expand_at_begin` (lines 1645-1834), mirror of `expand_at_end`: in-place
when the start Block has strictly more unused slots than requested (line
1657); otherwise grow the directory (lines 1691-1746) or shift the valid run
right (lines 1748-1778), allocate the new Blocks before the old begin block,
and set the new start iterator with offset `16 - t_validfrontsize` (lines
1791-1800). -/
def expand_at_begin (s : DequeState) (t : Nat) : DequeState × Nat × Nat :=
  if t < s.startOff then
    ({ s with startOff := s.startOff - t }, 0,
     lin s.startB s.startOff - lin s.startB (s.startOff - t))
  else
    let csize := needed_blocks s.startOff t
    let validfront := (t - s.startOff) % 16
    let remainfront := s.startB
    let res :=
      if spare_map_slots s < csize then
        let validmapsize := s.finB - s.startB + 1
        let oldmapstart := (s.mapsize - validmapsize) / 2
        let mapsize2 := s.mapsize + (csize - spare_map_slots s + 7) / 8 * 8
        let newposold := (mapsize2 - (validmapsize + csize)) / 2 + csize
        ((mapsize2 : Nat),
         (List.range mapsize2).map fun j =>
           if newposold ≤ j ∧ j < newposold + validmapsize then
             s.alloc.getD (oldmapstart + (j - newposold)) false
           else false,
         newposold,
         newposold + validmapsize - 1)
      else if remainfront < csize then
        let oldvalid := s.finB - s.startB + 1
        let movesize := ((s.mapsize - (oldvalid + csize)) / 2 + csize)
          - (s.mapsize - oldvalid) / 2
        (s.mapsize,
         (List.range s.alloc.length).map fun j =>
           if s.startB + movesize ≤ j ∧ j < s.startB + movesize + oldvalid then
             s.alloc.getD (j - movesize) false
           else s.alloc.getD j false,
         s.startB + movesize,
         s.finB + movesize)
      else (s.mapsize, s.alloc, s.startB, s.finB)
    ({ mapsize := res.1,
       alloc := alloc_range res.2.1 (res.2.2.1 - csize) csize true,
       startB := res.2.2.1 - csize, startOff := 16 - validfront,
       finB := res.2.2.2, finOff := s.finOff },
     csize,
     lin res.2.2.1 s.startOff - lin (res.2.2.1 - csize) (16 - validfront))

/-- `deque_init_n` (lines 475-561): Block count for `count` elements plus one
or two boundary Blocks, a directory of 16 slots grown by multiples of 8 when
needed, the valid run centred, the start iterator at the afterlast boundary
of the first Block and the finish iterator `count % 16` into the last. -/
def deque_init_n (count : Nat) : DequeState :=
  let validmap :=
    if 0 < count then
      (if count % 16 ≠ 0 then (count + 15) / 16 + 1 else (count + 15) / 16 + 2)
    else 2
  let endelem := if 0 < count then count % 16 else 0
  let mapcount :=
    if 0 < count ∧ 16 < validmap then
      16 + (validmap - 16 + 7) / 8 * 8
    else 16
  { mapsize := mapcount,
    alloc := (List.range mapcount).map fun j =>
      decide ((mapcount - validmap) / 2 ≤ j ∧ j < (mapcount - validmap) / 2 + validmap),
    startB := (mapcount - validmap) / 2, startOff := 16,
    finB := (mapcount - validmap) / 2 + validmap - 1, finOff := endelem }

/-- Well-formedness of a deque state: the allocation list matches the map
size, the finish block is a valid slot, offsets are in range (the finish
offset is kept strictly inside its Block by init, expand and shrink), and
start does not lie after finish. -/
def WF (s : DequeState) : Prop :=
  s.alloc.length = s.mapsize ∧ s.finB < s.mapsize ∧ s.startOff ≤ 16 ∧
  s.finOff ≤ 15 ∧ lin s.startB s.startOff ≤ lin s.finB s.finOff

instance (s : DequeState) : Decidable (WF s) := by
  unfold WF
  infer_instance

/-- Iterating `_deque_iterator_prev` from the finish iterator lands on the
canonical (block, offset) pair of the target linear position, as long as the
walk stays at or after the start position. -/
theorem iter_prev_canonical (sB sO fB fO : Nat) (hfo : fO ≤ 15)
    (hbound : 16 * sB + sO ≤ 16 * fB + fO) :
    ∀ k, k ≤ (16 * fB + fO) - (16 * sB + sO) →
      (iter_prev_step sB)^[k] (fB, (fO : Int))
        = ((16 * fB + fO - k) / 16, (((16 * fB + fO - k) % 16 : Nat) : Int)) := by
  intro k
  induction k with
  | zero =>
    intro _
    simp only [Function.iterate_zero, id_eq, Nat.sub_zero]
    have h1 : (16 * fB + fO) / 16 = fB := by omega
    have h2 : (16 * fB + fO) % 16 = fO := by omega
    rw [h1, h2]
  | succ n ih =>
    intro hk
    rw [Function.iterate_succ_apply', ih (by omega)]
    unfold iter_prev_step
    dsimp only
    by_cases hz : (16 * fB + fO - n) % 16 = 0
    · rw [if_pos (by omega), if_pos (by omega)]
      simp only [Prod.mk.injEq]
      refine ⟨by omega, by omega⟩
    · rw [if_neg (by omega)]
      simp only [Prod.mk.injEq]
      refine ⟨by omega, by omega⟩

/-- Iterating `_deque_iterator_next` from the start iterator lands on the
canonical (block, offset) pair of the target linear position for every
positive number of steps (the start offset itself may be the aliased 16),
as long as the walk stays at or before the finish position. -/
theorem iter_next_canonical (sB sO fB fO : Nat) (hso : sO ≤ 16) (hfo : fO ≤ 15)
    (hbound : 16 * sB + sO ≤ 16 * fB + fO) :
    ∀ k, 1 ≤ k → k ≤ (16 * fB + fO) - (16 * sB + sO) →
      (iter_next_step fB)^[k] (sB, (sO : Int))
        = ((16 * sB + sO + k) / 16, (((16 * sB + sO + k) % 16 : Nat) : Int)) := by
  intro k
  induction k with
  | zero => intro h1 _; omega
  | succ n ih =>
    intro _ hk
    by_cases hn : n = 0
    · subst hn
      rw [Function.iterate_succ_apply', Function.iterate_zero_apply]
      unfold iter_next_step
      dsimp only
      by_cases hro : 16 ≤ sO + 1
      · rw [if_pos (by omega), if_pos (by omega)]
        simp only [Prod.mk.injEq]
        refine ⟨by omega, by omega⟩
      · rw [if_neg (by omega)]
        simp only [Prod.mk.injEq]
        refine ⟨by omega, by omega⟩
    · rw [Function.iterate_succ_apply', ih (by omega) (by omega)]
      unfold iter_next_step
      dsimp only
      by_cases hro : (16 * sB + sO + n) % 16 = 15
      · rw [if_pos (by omega), if_pos (by omega)]
        simp only [Prod.mk.injEq]
        refine ⟨by omega, by omega⟩
      · rw [if_neg (by omega)]
        simp only [Prod.mk.injEq]
        refine ⟨by omega, by omega⟩

/-- Effect of `_shrink_at_end` on a well-formed state, claim C5's property
(amended) at one input: the destroyed count is the clamped `min k n`; the new
size is `n - min k n`; the begin end and the map size are untouched; the end
iterator moves inward by exactly the destroyed count; the freed Block slots
are exactly those strictly after the new finish block up to the old finish
block — every one of them inside the old valid run and wholly at or after the
new end position — and they are nulled, while every other map slot is
unchanged. -/
def shrink_end_spec (s : DequeState) (k : Nat) : Prop :=
  (shrink_at_end s k).2.1 = min k (dsize s) ∧
  dsize (shrink_at_end s k).1 = dsize s - min k (dsize s) ∧
  (shrink_at_end s k).1.startB = s.startB ∧
  (shrink_at_end s k).1.startOff = s.startOff ∧
  (shrink_at_end s k).1.mapsize = s.mapsize ∧
  lin (shrink_at_end s k).1.finB (shrink_at_end s k).1.finOff
      = lin s.finB s.finOff - min k (dsize s) ∧
  (shrink_at_end s k).2.2
      = List.range' ((shrink_at_end s k).1.finB + 1)
          (s.finB - (shrink_at_end s k).1.finB) ∧
  (∀ j ∈ (shrink_at_end s k).2.2,
      s.startB ≤ j ∧ j ≤ s.finB ∧
      lin (shrink_at_end s k).1.finB (shrink_at_end s k).1.finOff ≤ 16 * j) ∧
  (∀ j ∈ (shrink_at_end s k).2.2,
      (shrink_at_end s k).1.alloc.getD j false = false) ∧
  (∀ j, j < s.mapsize → j ∉ (shrink_at_end s k).2.2 →
      (shrink_at_end s k).1.alloc.getD j false = s.alloc.getD j false)

/-- Mirror of `shrink_end_spec` for `_shrink_at_begin`: freed Block slots are
exactly those strictly before the new start block down to the old start
block, each wholly before the new start position. -/
def shrink_begin_spec (s : DequeState) (k : Nat) : Prop :=
  (shrink_at_begin s k).2.1 = min k (dsize s) ∧
  dsize (shrink_at_begin s k).1 = dsize s - min k (dsize s) ∧
  (shrink_at_begin s k).1.finB = s.finB ∧
  (shrink_at_begin s k).1.finOff = s.finOff ∧
  (shrink_at_begin s k).1.mapsize = s.mapsize ∧
  lin (shrink_at_begin s k).1.startB (shrink_at_begin s k).1.startOff
      = lin s.startB s.startOff + min k (dsize s) ∧
  (shrink_at_begin s k).2.2
      = (List.range' s.startB ((shrink_at_begin s k).1.startB - s.startB)).reverse ∧
  (∀ j ∈ (shrink_at_begin s k).2.2,
      s.startB ≤ j ∧ j ≤ s.finB ∧
      16 * j + 16 ≤ lin (shrink_at_begin s k).1.startB (shrink_at_begin s k).1.startOff) ∧
  (∀ j ∈ (shrink_at_begin s k).2.2,
      (shrink_at_begin s k).1.alloc.getD j false = false) ∧
  (∀ j, j < s.mapsize → j ∉ (shrink_at_begin s k).2.2 →
      (shrink_at_begin s k).1.alloc.getD j false = s.alloc.getD j false)

/-- Claim C5 (amended): both Shrink Engine functions clamp the count to the
size, destroy exactly that many elements, move their iterator inward by that
amount, free exactly the Blocks between their old and new boundary block
(all wholly outside the new [start, end) range, their map slots nulled,
no Block holding an element of the new range among them), and touch nothing
else. -/
theorem shrink_clamps_destroys_and_frees (s : DequeState) (k : Nat)
    (hwf : WF s) : shrink_end_spec s k ∧ shrink_begin_spec s k := by
  obtain ⟨hlen, hfin, hso, hfo, hle⟩ := hwf
  unfold lin at hle
  constructor
  · have hit : (iter_prev_step s.startB)^[min k (dsize s)] (s.finB, (s.finOff : Int))
        = ((16 * s.finB + s.finOff - min k (dsize s)) / 16,
           (((16 * s.finB + s.finOff - min k (dsize s)) % 16 : Nat) : Int)) := by
      by_cases h0 : min k (dsize s) = 0
      · rw [h0]
        simp only [Function.iterate_zero, id_eq, Nat.sub_zero, Prod.mk.injEq]
        refine ⟨by omega, by omega⟩
      · exact iter_prev_canonical s.startB s.startOff s.finB s.finOff hfo hle
          (min k (dsize s)) (by unfold dsize lin; omega)
    have hkk : min k (dsize s) ≤ 16 * s.finB + s.finOff - (16 * s.startB + s.startOff) := by
      unfold dsize lin
      omega
    unfold shrink_end_spec shrink_at_end alloc_range
    rw [hit]
    unfold dsize lin
    dsimp only
    simp only [Int.toNat_natCast]
    refine ⟨?_, ?_, by trivial, by trivial, by trivial, ?_, by trivial, ?_, ?_, ?_⟩
    · omega
    · omega
    · omega
    · intro j hj
      have hjm := List.mem_range'_1.mp hj
      refine ⟨by omega, by omega, by omega⟩
    · intro j hj
      have hjm := List.mem_range'_1.mp hj
      rw [foldl_set_getD]
      rw [if_pos ⟨hj, by omega⟩]
    · intro j hjlt hj
      rw [foldl_set_getD]
      rw [if_neg (by
        intro hcon
        exact hj hcon.1)]
  · by_cases h0 : min k (dsize s) = 0
    · unfold shrink_begin_spec shrink_at_begin alloc_range
      rw [h0]
      simp only [Function.iterate_zero, id_eq, Nat.sub_self, List.range']
      unfold dsize lin
      dsimp only
      simp only [Int.toNat_natCast]
      refine ⟨?_, ?_, by trivial, by trivial, by trivial, ?_, by trivial, ?_, ?_, ?_⟩
      · omega
      · omega
      · omega
      · intro j hj
        simp at hj
      · intro j hj
        simp at hj
      · intro j _ _
        rfl
    · have hit : (iter_next_step s.finB)^[min k (dsize s)] (s.startB, (s.startOff : Int))
          = ((16 * s.startB + s.startOff + min k (dsize s)) / 16,
             (((16 * s.startB + s.startOff + min k (dsize s)) % 16 : Nat) : Int)) :=
        iter_next_canonical s.startB s.startOff s.finB s.finOff hso hfo hle
          (min k (dsize s)) (by omega) (by unfold dsize lin; omega)
      have hkk : min k (dsize s) ≤ 16 * s.finB + s.finOff - (16 * s.startB + s.startOff) := by
        unfold dsize lin
        omega
      unfold shrink_begin_spec shrink_at_begin alloc_range
      rw [hit]
      unfold dsize lin
      dsimp only
      simp only [Int.toNat_natCast]
      refine ⟨?_, ?_, by trivial, by trivial, by trivial, ?_, by trivial, ?_, ?_, ?_⟩
      · omega
      · omega
      · omega
      · intro j hj
        rw [List.mem_reverse] at hj
        have hjm := List.mem_range'_1.mp hj
        refine ⟨by omega, by omega, by omega⟩
      · intro j hj
        rw [List.mem_reverse] at hj
        have hjm := List.mem_range'_1.mp hj
        rw [foldl_set_getD]
        rw [if_pos ⟨hj, by omega⟩]
      · intro j hjlt hj
        rw [List.mem_reverse] at hj
        rw [foldl_set_getD]
        rw [if_neg (by
          intro hcon
          exact hj hcon.1)]

theorem shrink_clamps_destroys_and_frees_witness :
    WF (deque_init_n 40) ∧
    (shrink_end_spec (deque_init_n 40) 20 ∧ shrink_begin_spec (deque_init_n 40) 20) :=
  ⟨by decide, shrink_clamps_destroys_and_frees (deque_init_n 40) 20 (by decide)⟩

/-- A Block's slot interval `[16j, 16j + 16)` is disjoint from the element
range `[lo, hi)`: the Block lies wholly outside that range. -/
def block_wholly_outside (lo hi j : Nat) : Prop :=
  16 * j + 16 ≤ lo ∨ hi ≤ 16 * j

/-- Claim C5 counterexample: shrinking a one-element deque by one destroys
its only element, making the new range empty, so the front spare Block
(map slot 7 of `deque_init_n 1`) lies wholly outside the new range; yet
`_shrink_at_end` does not free it — the freed set is not "exactly the Blocks
wholly outside the new range". -/
theorem shrink_at_end_keeps_outside_block :
    (deque_init_n 1).alloc.getD 7 false = true ∧
    block_wholly_outside
      (lin (shrink_at_end (deque_init_n 1) 1).1.startB
        (shrink_at_end (deque_init_n 1) 1).1.startOff)
      (lin (shrink_at_end (deque_init_n 1) 1).1.finB
        (shrink_at_end (deque_init_n 1) 1).1.finOff)
      7 ∧
    7 ∉ (shrink_at_end (deque_init_n 1) 1).2.2 ∧
    (shrink_at_end (deque_init_n 1) 1).1.alloc.getD 7 false = true := by
  refine ⟨by decide, ?_, by decide, by decide⟩
  unfold block_wholly_outside
  decide

/-- In-place expansion at the end: only the finish offset advances by `t`,
no Block is allocated, no map slot changes, and exactly the `t` newly
entered slots are constructed. -/
def expand_end_inplace_spec (s : DequeState) (t : Nat) : Prop :=
  expand_at_end s t = ({ s with finOff := s.finOff + t }, 0, t)

/-- In-place expansion at the begin: only the start offset recedes by `t`. -/
def expand_begin_inplace_spec (s : DequeState) (t : Nat) : Prop :=
  expand_at_begin s t = ({ s with startOff := s.startOff - t }, 0, t)

/-- Claim C2 (amended): when the boundary Block has strictly more unused
slots than the requested expansion (`t < remainsize`), `_expand_at_end`
(resp. `_expand_at_begin`) allocates no Block and modifies no map slot — it
only moves the finish (resp. start) iterator by `t` and constructs the `t`
newly entered slots.  When the unused room equals `t` exactly, the code
takes the allocating path instead (see the counterexample). -/
theorem expand_spare_room_in_place (s : DequeState) (t : Nat) :
    (t < 16 - s.finOff → expand_end_inplace_spec s t) ∧
    (t < s.startOff → expand_begin_inplace_spec s t) := by
  constructor
  · intro h
    unfold expand_end_inplace_spec expand_at_end
    rw [if_pos h]
    simp only [Prod.mk.injEq]
    refine ⟨by trivial, by trivial, ?_⟩
    unfold lin
    omega
  · intro h
    unfold expand_begin_inplace_spec expand_at_begin
    rw [if_pos h]
    simp only [Prod.mk.injEq]
    refine ⟨by trivial, by trivial, ?_⟩
    unfold lin
    omega

theorem expand_spare_room_in_place_witness :
    ((5 < 16 - (deque_init_n 3).finOff ∧ expand_end_inplace_spec (deque_init_n 3) 5) ∧
     (5 < (deque_init_n 3).startOff ∧ expand_begin_inplace_spec (deque_init_n 3) 5)) :=
  ⟨⟨by decide, (expand_spare_room_in_place (deque_init_n 3) 5).1 (by decide)⟩,
   ⟨by decide, (expand_spare_room_in_place (deque_init_n 3) 5).2 (by decide)⟩⟩

/-- Claim C2 counterexample: `deque_init_n 15` has exactly `r = 1` unused
slot in its finish Block, so for `t = 1` the claim's `r ≥ t` holds; yet
`_expand_at_end` takes the allocating branch (`t_expandsize < t_remainsize`
is strict, line 1508) and allocates one fresh Block. -/
theorem expand_exact_fit_allocates :
    16 - (deque_init_n 15).finOff = 1 ∧
    (expand_at_end (deque_init_n 15) 1).2.1 = 1 ∧
    (expand_at_end (deque_init_n 15) 1).1.alloc ≠ (deque_init_n 15).alloc := by
  refine ⟨by decide, by decide, by decide⟩

/-- The grown directory size as a "smallest covering multiple" property:
`newsize` exceeds `oldsize` by `ceil(shortfall / 8) * 8`, the smallest
positive multiple of the grow step 8 that is at least the shortfall. -/
def grow_amount_spec (oldsize newsize shortfall : Nat) : Prop :=
  newsize = oldsize + (shortfall + 7) / 8 * 8 ∧
  (newsize - oldsize) % 8 = 0 ∧
  shortfall ≤ newsize - oldsize ∧
  newsize - oldsize < shortfall + 8 ∧
  0 < newsize - oldsize

/-- Claim C8: whenever an expansion needs more Blocks than the directory's
total spare slots, the reallocated directory grows by exactly the smallest
positive multiple of the grow step 8 covering the shortfall:
`new_mapsize = old_mapsize + ceil((needed_blocks - spare_slots) / 8) * 8`,
at both ends. -/
theorem map_grow_step_formula (s : DequeState) (t : Nat) :
    (16 - s.finOff ≤ t →
      spare_map_slots s < needed_blocks (16 - s.finOff) t →
      grow_amount_spec s.mapsize (expand_at_end s t).1.mapsize
        (needed_blocks (16 - s.finOff) t - spare_map_slots s)) ∧
    (s.startOff ≤ t →
      spare_map_slots s < needed_blocks s.startOff t →
      grow_amount_spec s.mapsize (expand_at_begin s t).1.mapsize
        (needed_blocks s.startOff t - spare_map_slots s)) := by
  constructor
  · intro h1 h2
    unfold grow_amount_spec expand_at_end
    rw [if_neg (by omega)]
    dsimp only
    rw [if_pos h2]
    dsimp only
    refine ⟨rfl, by omega, by omega, by omega, by omega⟩
  · intro h1 h2
    unfold grow_amount_spec expand_at_begin
    rw [if_neg (by omega)]
    dsimp only
    rw [if_pos h2]
    dsimp only
    refine ⟨rfl, by omega, by omega, by omega, by omega⟩

theorem map_grow_step_formula_witness :
    ((16 - (deque_init_n 0).finOff ≤ 300 ∧
      spare_map_slots (deque_init_n 0) < needed_blocks (16 - (deque_init_n 0).finOff) 300 ∧
      grow_amount_spec (deque_init_n 0).mapsize
        (expand_at_end (deque_init_n 0) 300).1.mapsize
        (needed_blocks (16 - (deque_init_n 0).finOff) 300 - spare_map_slots (deque_init_n 0))) ∧
     ((deque_init_n 0).startOff ≤ 300 ∧
      spare_map_slots (deque_init_n 0) < needed_blocks (deque_init_n 0).startOff 300 ∧
      grow_amount_spec (deque_init_n 0).mapsize
        (expand_at_begin (deque_init_n 0) 300).1.mapsize
        (needed_blocks (deque_init_n 0).startOff 300 - spare_map_slots (deque_init_n 0)))) :=
  ⟨⟨by decide, by decide,
    (map_grow_step_formula (deque_init_n 0) 300).1 (by decide) (by decide)⟩,
   ⟨by decide, by decide,
    (map_grow_step_formula (deque_init_n 0) 300).2 (by decide) (by decide)⟩⟩

/-! ### Directory monotonicity (claim C9)

Every facade mutator changes the map only through the four Growth/Shrink
Engine functions: push/pop delegate directly (lines 1082, 1093, 1107, 1116),
insert expands at one end (lines 1154, 1172, 1214, 1234), erase and
erase_range shrink at one end (lines 1256, 1261, 1270, 1284), resize does one
of the two at the end (lines 1291-1299), and assign/clear are built from
resize and erase_range.  A sequence of deque operations therefore acts on the
directory as a sequence of these four primitives. -/

inductive DequeOp where
  | expandEnd (t : Nat)
  | expandBegin (t : Nat)
  | shrinkEnd (k : Nat)
  | shrinkBegin (k : Nat)

def apply_op (s : DequeState) : DequeOp → DequeState
  | .expandEnd t => (expand_at_end s t).1
  | .expandBegin t => (expand_at_begin s t).1
  | .shrinkEnd k => (shrink_at_end s k).1
  | .shrinkBegin k => (shrink_at_begin s k).1

def apply_ops (s : DequeState) (ops : List DequeOp) : DequeState :=
  ops.foldl apply_op s

theorem expand_at_end_mapsize (s : DequeState) (t : Nat) :
    (expand_at_end s t).1.mapsize = s.mapsize ∨
    s.mapsize + 8 ≤ (expand_at_end s t).1.mapsize := by
  unfold expand_at_end
  by_cases h1 : t < 16 - s.finOff
  · rw [if_pos h1]
    exact Or.inl rfl
  · rw [if_neg h1]
    dsimp only
    by_cases h2 : spare_map_slots s < needed_blocks (16 - s.finOff) t
    · rw [if_pos h2]
      dsimp only
      right
      omega
    · rw [if_neg h2]
      by_cases h3 : s.mapsize - s.finB - 1 < needed_blocks (16 - s.finOff) t
      · rw [if_pos h3]
        exact Or.inl rfl
      · rw [if_neg h3]
        exact Or.inl rfl

theorem expand_at_begin_mapsize (s : DequeState) (t : Nat) :
    (expand_at_begin s t).1.mapsize = s.mapsize ∨
    s.mapsize + 8 ≤ (expand_at_begin s t).1.mapsize := by
  unfold expand_at_begin
  by_cases h1 : t < s.startOff
  · rw [if_pos h1]
    exact Or.inl rfl
  · rw [if_neg h1]
    dsimp only
    by_cases h2 : spare_map_slots s < needed_blocks s.startOff t
    · rw [if_pos h2]
      dsimp only
      right
      omega
    · rw [if_neg h2]
      by_cases h3 : s.startB < needed_blocks s.startOff t
      · rw [if_pos h3]
        exact Or.inl rfl
      · rw [if_neg h3]
        exact Or.inl rfl

/-- Claim C9: over every sequence of Growth/Shrink Engine operations the
directory capacity never decreases; the Shrink Engine leaves the map size
exactly unchanged (it only nulls slots), and an expansion either keeps the
directory or replaces it with a strictly larger one (by at least one grow
step of 8). -/
theorem mapsize_never_decreases :
    (∀ (s : DequeState) (ops : List DequeOp),
      s.mapsize ≤ (apply_ops s ops).mapsize) ∧
    (∀ (s : DequeState) (k : Nat),
      (shrink_at_end s k).1.mapsize = s.mapsize ∧
      (shrink_at_begin s k).1.mapsize = s.mapsize) ∧
    (∀ (s : DequeState) (t : Nat),
      ((expand_at_end s t).1.mapsize = s.mapsize ∨
        s.mapsize + 8 ≤ (expand_at_end s t).1.mapsize) ∧
      ((expand_at_begin s t).1.mapsize = s.mapsize ∨
        s.mapsize + 8 ≤ (expand_at_begin s t).1.mapsize)) := by
  have hop : ∀ (s : DequeState) (op : DequeOp),
      s.mapsize ≤ (apply_op s op).mapsize := by
    intro s op
    cases op with
    | expandEnd t =>
      rcases expand_at_end_mapsize s t with h | h <;> simp [apply_op] <;> omega
    | expandBegin t =>
      rcases expand_at_begin_mapsize s t with h | h <;> simp [apply_op] <;> omega
    | shrinkEnd k => simp [apply_op, shrink_at_end]
    | shrinkBegin k => simp [apply_op, shrink_at_begin]
  refine ⟨?_, ?_, ?_⟩
  · intro s ops
    induction ops generalizing s with
    | nil => exact Nat.le_refl _
    | cons op rest ih =>
      calc s.mapsize ≤ (apply_op s op).mapsize := hop s op
        _ ≤ (apply_ops (apply_op s op) rest).mapsize := ih (apply_op s op)
  · intro s k
    exact ⟨rfl, rfl⟩
  · intro s t
    exact ⟨expand_at_end_mapsize s t, expand_at_begin_mapsize s t⟩

end CstlDeque
